import Mathlib

/-!
Shallow embedding of `src/clang/utils/Intel/gen_assume.py`, a Python 2 tool
that rewrites intrinsic header files, inserting `__builtin_assume` feature
guards into function bodies and macro definitions.

Modelling conventions:
* a line is a `List Char`; `readline` results keep their trailing newline;
  at end of file `readline` yields the empty list (Python returns `''`);
* every `outFile.write(...)` call becomes one chunk (`List Char`) in the
  produced chunk list; the bytes written are the `join` of the chunks;
* Python exceptions that the script can raise are explicit result
  constructors (`KeyError` from `Set.remove`, `TypeError` from
  `"512" in None`), and a loop that would read past end of file forever
  (`readline` returning `''` never satisfying the exit test) is the
  explicit result `hang`;
* the driver loop of `main` consumes at least one input line per
  iteration, so it is written with a fuel counter that is provably
  sufficient (`processLinesF_fuel`); all other loops are structural.
-/

namespace GenAssume

/-- One physical line (or written chunk) of text, as a list of characters. -/
abbrev Line := List Char

/-- The characters stripped by Python 2 `str.strip()` on ASCII text:
space, tab, linefeed, carriage return, vertical tab, form feed. -/
def isPySpace (c : Char) : Bool :=
  c = ' ' || c = '\t' || c = '\n' || c = '\r' || c = '\x0b' || c = '\x0c'

/-- Python `str.lstrip()`. -/
def lstripL (l : Line) : Line := l.dropWhile isPySpace

/-- Python `str.rstrip()`. -/
def rstripL (l : Line) : Line := (l.reverse.dropWhile isPySpace).reverse

/-- Python `str.strip()`. -/
def stripL (l : Line) : Line := rstripL (lstripL l)

/-- Python `s.endswith(c)` for a single character `c`. -/
def endsWithChar (c : Char) (l : Line) : Bool := l.getLast? = some c

/-- Result of running a piece of the script: a value, an uncaught Python
`KeyError` (from `Set.remove` on an absent element), an uncaught Python
`TypeError` (from testing substring containment in `None`), or
non-termination of a `readline` loop at end of file. -/
inductive PRes (α : Type) where
  | ok : α → PRes α
  | keyError : PRes α
  | typeError : PRes α
  | hang : PRes α
deriving DecidableEq

namespace PRes

def map {α β : Type} (f : α → β) : PRes α → PRes β
  | .ok a => .ok (f a)
  | .keyError => .keyError
  | .typeError => .typeError
  | .hang => .hang

end PRes

/-! ### The three regular expressions of the script -/

/-- Helper for `funcMatchName`: the backtracking search of
`^(_.*?)\s*\(.*$` after the leading underscore.  `acc` holds the reversed
candidate for group 1 so far; the group is closed at the first boundary
followed by optional whitespace and an opening parenthesis. -/
def funcNameAux (acc : Line) : Line → Option Line
  | [] => none
  | c :: rest =>
    if ((c :: rest).dropWhile isPySpace).head? = some '(' then some acc.reverse
    else funcNameAux (c :: acc) rest

/-- Group 1 of `funcRegEx = ^(_.*?)\s*\(.*$` applied to a stripped line
(no embedded newline): the shortest prefix starting with an underscore
that is followed by optional whitespace and `(`; `none` when the regex
does not match (no leading underscore, or no parenthesis). -/
def funcMatchName (s : Line) : Option Line :=
  match s with
  | '_' :: rest => funcNameAux ['_'] rest
  | _ => none

/-- `dropLit p l` returns the remainder of `l` after the literal `p`,
or `none` when `p` is not a prefix of `l`. -/
def dropLit (p l : Line) : Option Line :=
  if p.isPrefixOf l then some (l.drop p.length) else none

/-- Split a list at the first occurrence of `c`: `some (before, after)`
with `c` not in `before`, or `none` when `c` does not occur. -/
def splitFirst (c : Char) : Line → Option (Line × Line)
  | [] => none
  | x :: xs =>
    if x = c then some ([], xs)
    else (splitFirst c xs).map (fun p => (x :: p.1, p.2))

/-- Helper for `macroMatch`: scan for the first `(` (accumulating the
reversed macro name in `acc`); group 3 runs from that `(` to the first
`)` after it; fail when no such pair exists. -/
def findParen (acc : Line) : Line → Option (Line × Line × Line)
  | [] => none
  | c :: cs =>
    if c = '(' then
      match splitFirst ')' cs with
      | some p => some (acc.reverse, ('(' :: p.1) ++ [')'], p.2)
      | none => none
    else findParen (c :: acc) cs

/-- Helper for `macroMatch`: groups 2-5 of the macro regular expression,
matched against the text after the define keyword and its whitespace
(`ws` is that whitespace, kept only to assemble group 1). -/
def macroTail (ws : Line) : Line → Option (Line × Line × Line × Line × Bool)
  | [] => none
  | c :: r3 =>
    if c = '_' then
      match findParen [c] r3 with
      | none => none
      | some g =>
        some (("#define".data) ++ ws, g.1, g.2.1,
          g.2.2.takeWhile (fun x => ¬ x = '\\'),
          ¬ g.2.2.dropWhile (fun x => ¬ x = '\\') = [])
    else none

/-- The five groups of
`macroRegEx = ^(#define\s+)(_.*?)(\(.*?\))([^\\]*)(\\?)` applied to a
stripped line: `(g1, g2, g3, g4, flag)` where `g1` is the define keyword
with its trailing whitespace, `g2` the macro name, `g3` the parenthesized
parameter list, `g4` the following run of non-backslash characters, and
`flag` is true when group 5 matched a backslash. -/
def macroMatch (s : Line) : Option (Line × Line × Line × Line × Bool) :=
  match dropLit ("#define".data) s with
  | none => none
  | some r1 =>
    if r1.takeWhile isPySpace = [] then none
    else macroTail (r1.takeWhile isPySpace) (r1.dropWhile isPySpace)

/-- Group 1 of `simpleMacroRegEx = ^#define\s+(_.*?)\s` applied to a
stripped line: the underscore-led name delimited by the first following
whitespace character; fails when no whitespace follows the name. -/
def simpleMacroName (s : Line) : Option Line :=
  match dropLit ("#define".data) s with
  | none => none
  | some r1 =>
    let ws := r1.takeWhile isPySpace
    let r2 := r1.dropWhile isPySpace
    if ws = [] then none
    else
      match r2 with
      | '_' :: r3 =>
        if r3.dropWhile (fun c => ¬ isPySpace c) = [] then none
        else some ('_' :: r3.takeWhile (fun c => ¬ isPySpace c))
      | _ => none

/-! ### Fixed text fragments of the script -/

/-- The statement written by `handleFunction`:
two spaces, the builtin-call template around the feature name, `;` and a
newline. -/
def assumeStmt (t : Line) : Line :=
  ("  __builtin_assume(__builtin_has_cpu_feature(_FEATURE_".data) ++ t ++ (");\n".data)

/-- The chunk written by `handleMacro` between the parameter list and
group 4: backslash-newline, then the opening parenthesis, the
feature-assumption call, the comma operator and another
backslash-newline. -/
def macroTemplate (t : Line) : Line :=
  (" \\\n  (__builtin_assume(__builtin_has_cpu_feature(_FEATURE_".data) ++ t ++ (")), \\\n".data)

/-- The chunk `')\n'` closing the grouping construct of a rewritten macro. -/
def closeChunk : Line := ")\n".data

/-- The chunk `'\\\n'` re-emitting the first line's continuation marker. -/
def contChunk : Line := "\\\n".data

/-- The sentinel include line `includeString` prepended by `main`. -/
def sentinel : Line := "#include <__x86intrin_features.h>\n".data

/-- The classifier prefix for function declarations (`line.startswith`). -/
def funcMarker : Line := "static __inline".data

/-- The classifier prefix for macro definitions (`line.startswith`). -/
def defineMarker : Line := "#define".data

/-! ### Python dictionary and set operations

`intrinsicTech` is an association list from intrinsic name to the value
stored by `parseDataXML`; that value is an `Option Line` because
`XMLToFeature.get(ID.text, ID.text)` is `None` when the `CPUID` element
has no text.  `allIntrinsics` is a list of names without duplicates. -/

/-- The feature map `intrinsicTech`. -/
abbrev FMap := List (Line × Option Line)

/-- Python `intrinsicTech.get(name)`: `None` both when the key is absent
and when the stored value is `None`. -/
def pyGet (m : FMap) (k : Line) : Option Line :=
  (List.lookup k m).bind id

/-- Python `dict[key] = value`: overwrite or append. -/
def pyDictSet (m : FMap) (k : Line) (v : Option Line) : FMap :=
  if (List.lookup k m).isSome then
    m.map (fun kv => if kv.1 = k then (k, v) else kv)
  else m ++ [(k, v)]

/-- Python `Set.add`: no duplicates. -/
def pySetAdd (p : List Line) (n : Line) : List Line :=
  if n ∈ p then p else p ++ [n]

/-! ### handleFunction -/

/-- The loop of `handleFunction`: while the stripped current line does not
end with an opening brace, read and emit the next line.  When the file is
exhausted, `readline` returns the empty string, whose stripped form never
ends with a brace, so the real loop runs forever: result `hang`. -/
def seekBrace (stripped : Line) (input : List Line) : PRes (List Line × List Line) :=
  if endsWithChar '\x7b' stripped then .ok ([], input)
  else
    match input with
    | [] => .hang
    | l :: rest => (seekBrace (stripL l) rest).map (fun p => (l :: p.1, p.2))

/-- `handleFunction(line, inFile, outFile)`.  Returns the chunks written,
the unread remainder of the file, and the updated `allIntrinsics`.
`allIntrinsics.remove(name)` raises `KeyError` when the name is absent. -/
def handleFunction (tech : FMap) (pending : List Line) (line : Line)
    (input : List Line) : PRes (List Line × List Line × List Line) :=
  let funcDecl := input.head?.getD []
  let input1 := input.tail
  let stripped := stripL funcDecl
  match funcMatchName stripped with
  | none => .ok ([line, funcDecl], input1, pending)
  | some name =>
    match pyGet tech name with
    | none => .ok ([line, funcDecl], input1, pending)
    | some t =>
      if name ∈ pending then
        (seekBrace stripped input1).map
          (fun p => ([line, funcDecl] ++ p.1 ++ [assumeStmt t], p.2, pending.erase name))
      else .keyError

/-! ### handleMacro -/

/-- The continuation loop of `handleMacro`: read lines while each
stripped line still ends with a backslash; return the emitted lines, the
line at which the loop broke (the empty string at end of file), and the
unread remainder. -/
def scanCont : List Line → List Line × Line × List Line
  | [] => ([], [], [])
  | l :: rest =>
    if endsWithChar '\\' (stripL l) then
      let r := scanCont rest
      (l :: r.1, r.2.1, r.2.2)
    else ([], l, rest)

/-- `handleMacro(line, inFile, outFile)`.  Returns the chunks written,
the unread remainder of the file, and the updated `allIntrinsics`.
The simple-macro fallback uses `Set.discard`, which never raises; the
main path uses `Set.remove`, which raises `KeyError` on an absent name. -/
def handleMacro (tech : FMap) (pending : List Line) (line : Line)
    (input : List Line) : PRes (List Line × List Line × List Line) :=
  let stripped := stripL line
  match macroMatch stripped with
  | none =>
    match simpleMacroName stripped with
    | some name => .ok ([line], input, pending.erase name)
    | none => .ok ([line], input, pending)
  | some g =>
    match pyGet tech g.2.1 with
    | none => .ok ([line], input, pending)
    | some t =>
      if g.2.1 ∈ pending then
        let p' := pending.erase g.2.1
        let head : List Line := [g.1, g.2.1, g.2.2.1, macroTemplate t, g.2.2.2.1]
        if g.2.2.2.2 = false then .ok (head ++ [closeChunk], input, p')
        else
          let r := scanCont input
          .ok (head ++ [contChunk] ++ r.1 ++ [rstripL r.2.1, closeChunk], r.2.2, p')
      else .keyError

/-! ### The driver loop of main

`while True: if not line: break; dispatch(line); line = inFile.readline()`.
Each iteration consumes the current line and whatever its handler reads,
so the number of iterations is bounded by the number of remaining lines
plus one; the loop is written with that fuel, and
`processLinesF_fuel` (below) proves the bound is never hit. -/

/-- One run of the dispatch loop over the remaining lines of a file,
with explicit fuel.  Produces the chunks written after the sentinel and
the final `allIntrinsics`. -/
def processLinesF (tech : FMap) : Nat → List Line → List Line →
    PRes (List Line × List Line)
  | 0, _, _ => .hang
  | _ + 1, pending, [] => .ok ([], pending)
  | fuel + 1, pending, line :: rest =>
    if line = [] then .ok ([], pending)
    else if funcMarker.isPrefixOf line then
      match handleFunction tech pending line rest with
      | .ok r => (processLinesF tech fuel r.2.2 r.2.1).map (fun q => (r.1 ++ q.1, q.2))
      | .keyError => .keyError
      | .typeError => .typeError
      | .hang => .hang
    else if defineMarker.isPrefixOf line then
      match handleMacro tech pending line rest with
      | .ok r => (processLinesF tech fuel r.2.2 r.2.1).map (fun q => (r.1 ++ q.1, q.2))
      | .keyError => .keyError
      | .typeError => .typeError
      | .hang => .hang
    else (processLinesF tech fuel pending rest).map (fun q => (line :: q.1, q.2))

/-- The dispatch loop with its sufficient fuel. -/
def processLines (tech : FMap) (pending : List Line) (input : List Line) :
    PRes (List Line × List Line) :=
  processLinesF tech (input.length + 1) pending input

/-- Processing of one header file by `main`: read the first line; if it
equals the sentinel, restore the file unchanged (result: the original
bytes); otherwise write the sentinel and run the dispatch loop starting
at that first line. -/
def processFile (tech : FMap) (pending : List Line) (input : List Line) :
    PRes (List Char × List Line) :=
  if input.head?.getD [] = sentinel then .ok (input.flatten, pending)
  else (processLines tech pending input).map
    (fun q => (sentinel ++ q.1.flatten, q.2))

/-- The per-file loop of `main` over the configured file list: each file
yields its output bytes, threading `allIntrinsics` from file to file. -/
def runFiles (tech : FMap) : List Line → List (List Line) →
    PRes (List (List Char) × List Line)
  | pending, [] => .ok ([], pending)
  | pending, f :: fs =>
    match processFile tech pending f with
    | .ok r => (runFiles tech r.2 fs).map (fun q => (r.1 :: q.1, q.2))
    | .keyError => .keyError
    | .typeError => .typeError
    | .hang => .hang

/-! ### parseDataXML -/

/-- One `<intrinsic>` element of the XML description, as seen through
`ElementTree`: the `name` attribute, the `tech` attribute (`None` when
absent), and the list of `<CPUID>` children, each carrying its text
(`None` for an empty element).  `elem.find("CPUID")` is the head of the
children list. -/
structure Intrinsic where
  name : Line
  tech : Option Line
  cpuid : List (Option Line)

/-- The fixed alias table `XMLToFeature`. -/
def XMLToFeature : List (Line × Line) :=
  [("BMI1".data, "BMI".data), ("BMI2".data, "BMI".data),
   ("FP16C".data, "F16C".data), ("RDRAND".data, "RDRND".data),
   ("SSE4.1".data, "SSE4_1".data), ("SSE4.2".data, "SSE4_2".data),
   ("PREFETCHWT1".data, "GENERIC_IA32".data), ("TSC".data, "GENERIC_IA32".data),
   ("FSGSBASE".data, "GENERIC_IA32".data), ("MONITOR".data, "GENERIC_IA32".data),
   ("RDTSCP".data, "GENERIC_IA32".data)]

/-- `XMLToFeature.get(ID.text, ID.text)`: alias the CPUID text when the
table knows it; `None` text stays `None` (it is not a key). -/
def aliasGet : Option Line → Option Line
  | none => none
  | some s => some ((List.lookup s XMLToFeature).getD s)

/-- Python `pat in s` on strings: `pat` occurs as a contiguous substring
of `s`. -/
def containsSub (pat : Line) : Line → Bool
  | [] => pat = []
  | x :: xs => pat.isPrefixOf (x :: xs) || containsSub pat xs

/-- The excluded technology substrings tested against the `tech`
attribute. -/
def badTechs : List Line := ["512".data, "KNC".data, "SVML".data]

/-- The excluded CPUID texts. -/
def badIds : List Line := ["MPX".data, "XSAVE".data, "FXSR".data]

/-- The filter of `parseDataXML` for one element, evaluated in Python's
short-circuit order.  `ID is not None` is tested first; only then is
`"512" in tech` evaluated, which raises `TypeError` when the `tech`
attribute is absent (`"512" in None`). -/
def parseStep (pending : List Line) (fm : FMap) (e : Intrinsic) :
    PRes (FMap × List Line) :=
  match e.cpuid.head? with
  | none => .ok (fm, pending)
  | some idText =>
    match e.tech with
    | none => .typeError
    | some tech =>
      if badTechs.any (fun b => containsSub b tech) then .ok (fm, pending)
      else if badIds.any (fun b => some b = idText) then .ok (fm, pending)
      else .ok (pyDictSet fm e.name (aliasGet idText), pySetAdd pending e.name)

/-- `parseDataXML`: fold `parseStep` over the intrinsic elements in
document order, starting from the empty map and set. -/
def parseElems : List Line → FMap → List Intrinsic → PRes (FMap × List Line)
  | pending, fm, [] => .ok (fm, pending)
  | pending, fm, e :: es =>
    match parseStep pending fm e with
    | .ok r => parseElems r.2 r.1 es
    | .keyError => .keyError
    | .typeError => .typeError
    | .hang => .hang

/-! ### Splitting a byte stream back into readline lines -/

/-- Helper for `splitLines`: `acc` is the reversed current line. -/
def splitLinesAux (acc : Line) : List Char → List Line
  | [] => if acc = [] then [] else [acc.reverse]
  | c :: cs =>
    if c = '\n' then (acc.reverse ++ ['\n']) :: splitLinesAux [] cs
    else splitLinesAux (c :: acc) cs

/-- Split a byte stream into the successive results of `readline`:
each line keeps its trailing newline; a final fragment without a newline
is its own line; the empty stream has no lines. -/
def splitLines (l : List Char) : List Line := splitLinesAux [] l

/-- Number of newline characters in a chunk. -/
def countNl (l : List Char) : Nat := l.count '\n'

/-! ## Lemmas about splitLines -/

theorem splitLinesAux_flatten (l : List Char) :
    ∀ acc, (splitLinesAux acc l).flatten = acc.reverse ++ l := by
  induction l with
  | nil =>
    intro acc
    by_cases h : acc = [] <;> simp [splitLinesAux, h]
  | cons c cs ih =>
    intro acc
    by_cases h : c = '\n'
    · subst h; simp [splitLinesAux, ih]
    · simp [splitLinesAux, h, ih]

theorem splitLines_flatten (l : List Char) : (splitLines l).flatten = l := by
  simpa using splitLinesAux_flatten l []

theorem splitLinesAux_newline (pre : List Char) (hpre : ∀ c ∈ pre, c ≠ '\n') :
    ∀ acc rest, splitLinesAux acc (pre ++ '\n' :: rest) =
      ((acc.reverse ++ pre) ++ ['\n']) :: splitLinesAux [] rest := by
  induction pre with
  | nil => intro acc rest; simp [splitLinesAux]
  | cons c cs ih =>
    intro acc rest
    have hc : ¬ c = '\n' := hpre c (by simp)
    have hcs : ∀ x ∈ cs, x ≠ '\n' := fun x hx => hpre x (by simp [hx])
    have h1 : splitLinesAux acc ((c :: cs) ++ '\n' :: rest)
        = splitLinesAux (c :: acc) (cs ++ '\n' :: rest) := by
      simp [splitLinesAux, hc]
    rw [h1, ih hcs (c :: acc) rest]
    simp

/-- The sentinel is a newline-free body followed by one newline. -/
theorem sentinel_shape :
    sentinel = ("#include <__x86intrin_features.h>".data) ++ ['\n'] ∧
    ∀ c ∈ ("#include <__x86intrin_features.h>".data), c ≠ '\n' := by
  constructor
  · decide
  · decide

theorem splitLines_sentinel (r : List Char) :
    splitLines (sentinel ++ r) = sentinel :: splitLines r := by
  obtain ⟨h1, h2⟩ := sentinel_shape
  calc splitLines (sentinel ++ r)
      = splitLinesAux [] (("#include <__x86intrin_features.h>".data) ++ '\n' :: r) := by
        rw [splitLines, h1]; simp
    _ = sentinel :: splitLines r := by
        rw [splitLinesAux_newline _ h2]
        simp [splitLines, h1]

/-! ## Idempotence of the file transformer -/

theorem processFile_sentinel (tech : FMap) (pending : List Line) (input : List Line)
    (h : input.head?.getD [] = sentinel) :
    processFile tech pending input = .ok (input.flatten, pending) := by
  simp [processFile, h]

theorem processFile_out (tech : FMap) (pending : List Line) (input : List Line)
    (o : List Char) (p2 : List Line)
    (h : processFile tech pending input = .ok (o, p2)) :
    ∃ r, o = sentinel ++ r := by
  unfold processFile at h
  by_cases hs : input.head?.getD [] = sentinel
  · rw [if_pos hs] at h
    match input, hs with
    | [], hs => exact absurd hs.symm (by decide)
    | s :: tl, hs =>
      refine ⟨tl.flatten, ?_⟩
      have : s = sentinel := by simpa using hs
      cases h
      simp [this]
  · rw [if_neg hs] at h
    cases hp : processLines tech pending input with
    | ok q => rw [hp] at h; cases h; exact ⟨q.1.flatten, rfl⟩
    | keyError => rw [hp] at h; cases h
    | typeError => rw [hp] at h; cases h
    | hang => rw [hp] at h; cases h

theorem processFile_rerun (tech : FMap) (pending : List Line) (tech' : FMap)
    (pending' : List Line) (input : List Line) (o : List Char) (p2 : List Line)
    (h : processFile tech pending input = .ok (o, p2)) :
    processFile tech' pending' (splitLines o) = .ok (o, pending') := by
  obtain ⟨r, rfl⟩ := processFile_out tech pending input o p2 h
  rw [splitLines_sentinel]
  have hh : ((sentinel :: splitLines r).head?.getD []) = sentinel := rfl
  rw [processFile_sentinel tech' pending' _ hh]
  simp [splitLines_flatten]

theorem runFiles_rerun : ∀ (fs : List (List Line)) (tech : FMap) (pending : List Line)
    (tech' : FMap) (pending' : List Line) (outs : List (List Char)) (p2 : List Line),
    runFiles tech pending fs = .ok (outs, p2) →
    runFiles tech' pending' (outs.map splitLines) = .ok (outs, pending') := by
  intro fs
  induction fs with
  | nil =>
    intro tech pending tech' pending' outs p2 h
    cases h
    simp [runFiles]
  | cons f fs ih =>
    intro tech pending tech' pending' outs p2 h
    cases hf : processFile tech pending f with
    | ok r =>
      simp only [runFiles, hf] at h
      cases hrest : runFiles tech r.2 fs with
      | ok q =>
        simp only [hrest, PRes.map, PRes.ok.injEq] at h
        obtain ⟨ho, hp⟩ := Prod.mk.injEq .. ▸ h
        subst ho
        have h1 := processFile_rerun tech pending tech' pending' f r.1 r.2
          (by rw [hf])
        have h2 := ih tech r.2 tech' pending' q.1 q.2 (by rw [hrest])
        simp only [List.map_cons, runFiles, h1, h2, PRes.map]
      | keyError => simp [hrest, PRes.map] at h
      | typeError => simp [hrest, PRes.map] at h
      | hang => simp [hrest, PRes.map] at h
    | keyError => simp [runFiles, hf] at h
    | typeError => simp [runFiles, hf] at h
    | hang => simp [runFiles, hf] at h

/-- C2: the file transformer is idempotent.  A file whose first line is
exactly the sentinel include line is restored byte-identical with no
rescanning (the pending set is returned untouched), and running the whole
tool a second time on the outputs of a successful first run reproduces
those outputs exactly. -/
theorem c2_transformer_idempotent :
    (∀ (tech : FMap) (pending : List Line) (input : List Line),
      input.head?.getD [] = sentinel →
      processFile tech pending input = .ok (input.flatten, pending)) ∧
    (∀ (tech : FMap) (pending : List Line) (tech' : FMap) (pending' : List Line)
      (fs : List (List Line)) (outs : List (List Char)) (p2 : List Line),
      runFiles tech pending fs = .ok (outs, p2) →
      runFiles tech' pending' (outs.map splitLines) = .ok (outs, pending')) := by
  constructor
  · exact processFile_sentinel
  · intro tech pending tech' pending' fs outs p2 h
    exact runFiles_rerun fs tech pending tech' pending' outs p2 h

/-- Witness for C2 at a concrete sentinel-headed file and a concrete run. -/
theorem c2_witness :
    processFile [] [] [sentinel, ("int x;\n".data)] =
      .ok (([sentinel, ("int x;\n".data)] : List Line).flatten, []) ∧
    runFiles [] [] ([sentinel ++ ("abc\n".data)].map splitLines) =
      .ok ([sentinel ++ ("abc\n".data)], []) := by
  constructor
  · exact c2_transformer_idempotent.1 [] [] [sentinel, ("int x;\n".data)] (by decide)
  · exact c2_transformer_idempotent.2 [] [] [] [] [[sentinel, ("abc\n".data)]]
      [sentinel ++ ("abc\n".data)] [] (by decide)

/-! ## Lemmas about the brace-seeking loop of handleFunction -/

theorem seekBrace_immediate (stripped : Line) (input : List Line)
    (h : endsWithChar '\x7b' stripped = true) :
    seekBrace stripped input = .ok ([], input) := by
  rw [seekBrace.eq_def, if_pos h]

theorem seekBrace_nil (stripped : Line)
    (h : endsWithChar '\x7b' stripped = false) :
    seekBrace stripped [] = .hang := by
  rw [seekBrace.eq_def, if_neg (by simp [h])]

theorem seekBrace_cons (stripped l : Line) (rest : List Line)
    (h : endsWithChar '\x7b' stripped = false) :
    seekBrace stripped (l :: rest) =
      (seekBrace (stripL l) rest).map (fun p => (l :: p.1, p.2)) := by
  rw [seekBrace.eq_def, if_neg (by simp [h])]

theorem seekBrace_found : ∀ (mids : List Line) (stripped l : Line) (after : List Line),
    endsWithChar '\x7b' stripped = false →
    (∀ m ∈ mids, endsWithChar '\x7b' (stripL m) = false) →
    endsWithChar '\x7b' (stripL l) = true →
    seekBrace stripped (mids ++ l :: after) = .ok (mids ++ [l], after) := by
  intro mids
  induction mids with
  | nil =>
    intro stripped l after h0 _ hl
    rw [List.nil_append, seekBrace_cons _ _ _ h0, seekBrace_immediate _ _ hl]
    rfl
  | cons m ms ih =>
    intro stripped l after h0 hmids hl
    rw [List.cons_append, seekBrace_cons _ _ _ h0]
    rw [ih (stripL m) l after (hmids m (by simp)) (fun x hx => hmids x (by simp [hx])) hl]
    rfl

theorem seekBrace_hang : ∀ (input : List Line) (stripped : Line),
    endsWithChar '\x7b' stripped = false →
    (∀ m ∈ input, endsWithChar '\x7b' (stripL m) = false) →
    seekBrace stripped input = .hang := by
  intro input
  induction input with
  | nil => intro s h0 _; exact seekBrace_nil s h0
  | cons l rest ih =>
    intro s h0 hall
    rw [seekBrace_cons _ _ _ h0]
    rw [ih (stripL l) (hall l (by simp)) (fun m hm => hall m (by simp [hm]))]
    rfl

theorem seekBrace_ok_exists : ∀ (input : List Line) (stripped : Line),
    (endsWithChar '\x7b' stripped = true ∨
      ∃ l ∈ input, endsWithChar '\x7b' (stripL l) = true) →
    ∃ o r, seekBrace stripped input = .ok (o, r) := by
  intro input
  induction input with
  | nil =>
    intro s h
    rcases h with h | ⟨l, hl, _⟩
    · exact ⟨[], [], seekBrace_immediate s [] h⟩
    · cases hl
  | cons l rest ih =>
    intro s h
    by_cases hs : endsWithChar '\x7b' s = true
    · exact ⟨[], l :: rest, seekBrace_immediate s (l :: rest) hs⟩
    · have hnext : endsWithChar '\x7b' (stripL l) = true ∨
          ∃ m ∈ rest, endsWithChar '\x7b' (stripL m) = true := by
        rcases h with h | ⟨m, hm, hends⟩
        · exact absurd h hs
        · rcases List.mem_cons.mp hm with rfl | hm'
          · exact Or.inl hends
          · exact Or.inr ⟨m, hm', hends⟩
      obtain ⟨o, r, hsb⟩ := ih (stripL l) hnext
      refine ⟨l :: o, r, ?_⟩
      rw [seekBrace_cons _ _ _ (by simpa using hs), hsb]
      rfl

/-- C1: a function declaration in the supported form (marker line, then a
prototype line whose extracted name is a FeatureMap key, then lines up to
the one whose stripped form ends with the opening brace) is emitted
unchanged, followed immediately — right after the brace line — by exactly
one feature-assumption statement for the mapped feature identifier.  The
last conjunct covers the brace appearing on the prototype line itself. -/
theorem c1_function_assume (tech : FMap) (pending : List Line)
    (lineA funcDecl : Line) (mids : List Line) (braceLine : Line)
    (after : List Line) (name t : Line)
    (_hmarker : funcMarker.isPrefixOf lineA = true)
    (hname : funcMatchName (stripL funcDecl) = some name)
    (hget : pyGet tech name = some t)
    (hpend : name ∈ pending)
    (hnb : endsWithChar '\x7b' (stripL funcDecl) = false)
    (hmids : ∀ m ∈ mids, endsWithChar '\x7b' (stripL m) = false)
    (hbrace : endsWithChar '\x7b' (stripL braceLine) = true)
    (hclean : assumeStmt t ∉ (lineA :: funcDecl :: (mids ++ [braceLine]))) :
    handleFunction tech pending lineA (funcDecl :: (mids ++ braceLine :: after)) =
      .ok ((lineA :: funcDecl :: (mids ++ [braceLine])) ++ [assumeStmt t],
        after, pending.erase name) ∧
    List.count (assumeStmt t)
      ((lineA :: funcDecl :: (mids ++ [braceLine])) ++ [assumeStmt t]) = 1 ∧
    (∀ (lineB declB : Line) (restB : List Line),
      funcMatchName (stripL declB) = some name →
      endsWithChar '\x7b' (stripL declB) = true →
      assumeStmt t ∉ [lineB, declB] →
      handleFunction tech pending lineB (declB :: restB) =
        .ok ([lineB, declB, assumeStmt t], restB, pending.erase name) ∧
      List.count (assumeStmt t) [lineB, declB, assumeStmt t] = 1) := by
  refine ⟨?_, ?_, ?_⟩
  · simp only [handleFunction, List.head?_cons, Option.getD_some, List.tail_cons,
      hname, hget, if_pos hpend]
    rw [seekBrace_found mids _ braceLine after hnb hmids hbrace]
    simp [PRes.map]
  · rw [List.count_append, List.count_eq_zero.mpr hclean]
    simp
  · intro lineB declB restB hnameB hbraceB hcleanB
    constructor
    · simp only [handleFunction, List.head?_cons, Option.getD_some, List.tail_cons,
        hnameB, hget, if_pos hpend]
      rw [seekBrace_immediate _ _ hbraceB]
      simp [PRes.map]
    · have : List.count (assumeStmt t) [lineB, declB] = 0 :=
        List.count_eq_zero.mpr hcleanB
      have h2 : ([lineB, declB, assumeStmt t] : List Line)
          = [lineB, declB] ++ [assumeStmt t] := by simp
      rw [h2, List.count_append, this]
      simp

/-- Witness for C1: the spec's own example, `_mm_foo` mapped to `SSE2`,
with the brace on a separate line and on the prototype line. -/
theorem c1_witness :
    handleFunction [(("_mm_foo".data), some ("SSE2".data))] [("_mm_foo".data)]
        ("static __inline__ void __attribute__((__always_inline__))\n".data)
        (("_mm_foo(void)\n".data) :: ([] ++ ("\x7b\n".data) :: [])) =
      .ok ((("static __inline__ void __attribute__((__always_inline__))\n".data) ::
          ("_mm_foo(void)\n".data) :: ([] ++ [("\x7b\n".data)])) ++
          [assumeStmt ("SSE2".data)], [], []) ∧
    List.count (assumeStmt ("SSE2".data))
      ((("static __inline__ void __attribute__((__always_inline__))\n".data) ::
        ("_mm_foo(void)\n".data) :: ([] ++ [("\x7b\n".data)])) ++
        [assumeStmt ("SSE2".data)]) = 1 ∧
    handleFunction [(("_mm_foo".data), some ("SSE2".data))] [("_mm_foo".data)]
        ("static __inline int\n".data) (("_mm_foo(void) \x7b\n".data) :: []) =
      .ok ([("static __inline int\n".data), ("_mm_foo(void) \x7b\n".data),
        assumeStmt ("SSE2".data)], [], []) := by
  have h := c1_function_assume [(("_mm_foo".data), some ("SSE2".data))]
    [("_mm_foo".data)]
    ("static __inline__ void __attribute__((__always_inline__))\n".data)
    ("_mm_foo(void)\n".data) [] ("\x7b\n".data) [] ("_mm_foo".data) ("SSE2".data)
    (by decide) (by decide) (by decide) (by decide) (by decide)
    (by intro m hm; cases hm) (by decide) (by decide)
  refine ⟨h.1, h.2.1, ?_⟩
  exact (h.2.2 ("static __inline int\n".data) ("_mm_foo(void) \x7b\n".data) []
    (by decide) (by decide) (by decide)).1

/-- C9: with a mapped prototype name, the brace-seeking loop terminates
exactly when the prototype line or some later line has a stripped form
ending with the opening brace; when no such line exists the loop reads
past end of file forever. -/
theorem c9_brace_seek_termination (tech : FMap) (pending : List Line)
    (lineA funcDecl : Line) (body : List Line) (name t : Line)
    (hname : funcMatchName (stripL funcDecl) = some name)
    (hget : pyGet tech name = some t)
    (hpend : name ∈ pending) :
    ((endsWithChar '\x7b' (stripL funcDecl) = true ∨
        ∃ l ∈ body, endsWithChar '\x7b' (stripL l) = true) →
      ∃ out rem, handleFunction tech pending lineA (funcDecl :: body) =
        .ok (out, rem, pending.erase name)) ∧
    ((endsWithChar '\x7b' (stripL funcDecl) = false ∧
        ∀ l ∈ body, endsWithChar '\x7b' (stripL l) = false) →
      handleFunction tech pending lineA (funcDecl :: body) = .hang) := by
  constructor
  · intro h
    obtain ⟨o, r, hsb⟩ := seekBrace_ok_exists body (stripL funcDecl) h
    refine ⟨[lineA, funcDecl] ++ o ++ [assumeStmt t], r, ?_⟩
    simp only [handleFunction, List.head?_cons, Option.getD_some, List.tail_cons,
      hname, hget, if_pos hpend]
    rw [hsb]
    rfl
  · intro ⟨h1, h2⟩
    simp only [handleFunction, List.head?_cons, Option.getD_some, List.tail_cons,
      hname, hget, if_pos hpend]
    rw [seekBrace_hang body (stripL funcDecl) h1 h2]
    rfl

/-- Witness for C9: termination with the brace two lines down; divergence
for a file that ends before any opening brace. -/
theorem c9_witness :
    (∃ out rem,
      handleFunction [(("_f".data), some ("BMI".data))] [("_f".data)]
        ("static __inline int\n".data)
        [("_f(void)\n".data), ("\x7b\n".data)] = .ok (out, rem, [])) ∧
    handleFunction [(("_f".data), some ("BMI".data))] [("_f".data)]
      ("static __inline int\n".data) [("_f(void)\n".data)] = .hang := by
  constructor
  · have h := (c9_brace_seek_termination [(("_f".data), some ("BMI".data))]
      [("_f".data)] ("static __inline int\n".data) ("_f(void)\n".data)
      [("\x7b\n".data)] ("_f".data) ("BMI".data)
      (by decide) (by decide) (by decide)).1
      (Or.inr ⟨("\x7b\n".data), by simp, by decide⟩)
    simpa using h
  · exact (c9_brace_seek_termination [(("_f".data), some ("BMI".data))]
      [("_f".data)] ("static __inline int\n".data) ("_f(void)\n".data)
      [] ("_f".data) ("BMI".data) (by decide) (by decide) (by decide)).2
      ⟨by decide, by intro l hl; cases hl⟩

/-! ## Lemmas about the continuation loop of handleMacro -/

theorem scanCont_all : ∀ (input : List Line),
    (∀ m ∈ input, endsWithChar '\\' (stripL m) = true) →
    scanCont input = (input, [], []) := by
  intro input
  induction input with
  | nil => intro _; rfl
  | cons l rest ih =>
    intro h
    simp only [scanCont, h l (by simp), if_pos]
    rw [ih (fun m hm => h m (by simp [hm]))]

theorem scanCont_split : ∀ (mids : List Line) (l : Line) (after : List Line),
    (∀ m ∈ mids, endsWithChar '\\' (stripL m) = true) →
    endsWithChar '\\' (stripL l) = false →
    scanCont (mids ++ l :: after) = (mids, l, after) := by
  intro mids
  induction mids with
  | nil =>
    intro l after _ hl
    simp [scanCont, hl]
  | cons m ms ih =>
    intro l after hmids hl
    simp only [List.cons_append, scanCont, hmids m (by simp), if_pos, List.append_eq]
    rw [ih l after (fun x hx => hmids x (by simp [hx])) hl]

/-- Lines all ending in a newline flatten to a chunk ending in a newline
(or to nothing). -/
theorem flatten_lastNl : ∀ (input : List Line),
    (∀ m ∈ input, m.getLast? = some '\n') →
    input = [] ∨ ∃ p, input.flatten = p ++ ['\n'] := by
  intro input
  induction input with
  | nil => intro _; exact Or.inl rfl
  | cons l rest ih =>
    intro h
    refine Or.inr ?_
    rcases ih (fun m hm => h m (by simp [hm])) with rfl | ⟨p, hp⟩
    · obtain ⟨l', hl'⟩ := List.getLast?_eq_some_iff.mp (h l (by simp))
      exact ⟨l', by simp [hl']⟩
    · exact ⟨l ++ p, by simp [hp]⟩

/-- C10: the continuation-scanning loop of the macro rewriter terminates
on every finite input — `handleMacro` never hangs — and when the file
ends before a line without a trailing continuation marker, the closing
token and a newline are still emitted, so the output ends with a final
line consisting of the closing parenthesis alone. -/
theorem c10_macro_cont_termination :
    (∀ (tech : FMap) (pending : List Line) (line : Line) (input : List Line),
      handleMacro tech pending line input ≠ .hang) ∧
    (∀ (tech : FMap) (pending : List Line) (line : Line) (input : List Line)
      (g1 g2 g3 g4 t : Line),
      macroMatch (stripL line) = some (g1, g2, g3, g4, true) →
      pyGet tech g2 = some t → g2 ∈ pending →
      (∀ m ∈ input, endsWithChar '\\' (stripL m) = true) →
      (∀ m ∈ input, m.getLast? = some '\n') →
      handleMacro tech pending line input =
        .ok ([g1, g2, g3, macroTemplate t, g4, contChunk] ++ input ++
          [([] : Line), closeChunk], [], pending.erase g2) ∧
      ∃ pre, (([g1, g2, g3, macroTemplate t, g4, contChunk] ++ input ++
          [([] : Line), closeChunk] : List Line)).flatten = pre ++ ['\n', ')', '\n']) := by
  constructor
  · intro tech pending line input h
    simp only [handleMacro] at h
    repeat' split at h
    all_goals exact PRes.noConfusion h
  · intro tech pending line input g1 g2 g3 g4 t hm hget hp hcont hnl
    constructor
    · simp only [handleMacro, hm, hget, if_pos hp, Bool.true_eq_false, if_neg]
      rw [scanCont_all input hcont]
      simp [rstripL]
    · rcases flatten_lastNl input hnl with rfl | ⟨p, hp2⟩
      · refine ⟨g1 ++ g2 ++ g3 ++ macroTemplate t ++ g4 ++ ['\\'], ?_⟩
        simp [contChunk, closeChunk]
      · refine ⟨g1 ++ g2 ++ g3 ++ macroTemplate t ++ g4 ++ contChunk ++ p, ?_⟩
        simp [contChunk, closeChunk, hp2]

/-- Witness for C10 at a concrete truncated multi-line macro. -/
theorem c10_witness :
    handleMacro [(("_a".data), some ("AVX".data))] [("_a".data)]
      ("#define _a(x) y \\\n".data) [(" z \\\n".data)] ≠ .hang ∧
    handleMacro [(("_a".data), some ("AVX".data))] [("_a".data)]
      ("#define _a(x) y \\\n".data) [(" z \\\n".data)] =
      .ok ([("#define ".data), ("_a".data), ("(x)".data),
        macroTemplate ("AVX".data), (" y ".data), contChunk] ++ [(" z \\\n".data)] ++
        [([] : Line), closeChunk], [], []) ∧
    (∃ pre, (([("#define ".data), ("_a".data), ("(x)".data),
        macroTemplate ("AVX".data), (" y ".data), contChunk] ++ [(" z \\\n".data)] ++
        [([] : Line), closeChunk] : List Line)).flatten = pre ++ ['\n', ')', '\n']) := by
  have h2 := c10_macro_cont_termination.2 [(("_a".data), some ("AVX".data))]
    [("_a".data)] ("#define _a(x) y \\\n".data) [(" z \\\n".data)]
    ("#define ".data) ("_a".data) ("(x)".data) (" y ".data) ("AVX".data)
    (by decide) (by decide) (by decide)
    (by intro m hm; simp at hm; subst hm; decide)
    (by intro m hm; simp at hm; subst hm; decide)
  exact ⟨c10_macro_cont_termination.1 _ _ _ _, by simpa using h2.1, by simpa using h2.2⟩

/-! ## Newline counting -/

theorem countNl_append (a b : List Char) :
    countNl (a ++ b) = countNl a + countNl b := by
  simp [countNl, List.count_append]

theorem countNl_flatten_ones : ∀ (mids : List Line),
    (∀ m ∈ mids, countNl m = 1) → countNl mids.flatten = mids.length := by
  intro mids
  induction mids with
  | nil => intro _; rfl
  | cons m ms ih =>
    intro h
    simp only [List.flatten_cons, countNl_append, h m (by simp),
      ih (fun x hx => h x (by simp [hx])), List.length_cons]
    omega

/-- C3: a macro definition spanning `N = mids.length + 2` physical lines
(every line but the last carrying a trailing continuation marker) whose
name is mapped produces output with the body preserved — the middle lines
verbatim, the final line right-stripped and extended by exactly one `)`
before its newline — and `N + 2` output lines in total: the rewritten
define line, the inserted assumption line, and `N` lines of body. -/
theorem c3_multiline_continuation (tech : FMap) (pending : List Line) (lineM : Line)
    (mids : List Line) (lastL : Line) (after : List Line) (g1 g2 g3 g4 t : Line)
    (hm : macroMatch (stripL lineM) = some (g1, g2, g3, g4, true))
    (hget : pyGet tech g2 = some t) (hp : g2 ∈ pending)
    (hmids : ∀ m ∈ mids, endsWithChar '\\' (stripL m) = true)
    (hlast : endsWithChar '\\' (stripL lastL) = false)
    (hnlm : ∀ m ∈ mids, countNl m = 1)
    (hg : countNl (g1 ++ g2 ++ g3 ++ g4 ++ t ++ rstripL lastL) = 0) :
    handleMacro tech pending lineM (mids ++ lastL :: after) =
      .ok ([g1, g2, g3, macroTemplate t, g4, contChunk] ++ mids ++
        [rstripL lastL, closeChunk], after, pending.erase g2) ∧
    countNl (([g1, g2, g3, macroTemplate t, g4, contChunk] ++ mids ++
        [rstripL lastL, closeChunk] : List Line).flatten) = (mids.length + 2) + 2 ∧
    ∃ pre, (([g1, g2, g3, macroTemplate t, g4, contChunk] ++ mids ++
        [rstripL lastL, closeChunk] : List Line).flatten) =
      pre ++ (rstripL lastL ++ [')', '\n']) := by
  have h0 : countNl g1 = 0 ∧ countNl g2 = 0 ∧ countNl g3 = 0 ∧ countNl g4 = 0 ∧
      countNl t = 0 ∧ countNl (rstripL lastL) = 0 := by
    simp only [countNl_append] at hg
    omega
  refine ⟨?_, ?_, ?_⟩
  · simp only [handleMacro, hm, hget, if_pos hp, Bool.true_eq_false, if_neg]
    rw [scanCont_split mids lastL after hmids hlast]
    simp
  · have hT : countNl (macroTemplate t) = 2 := by
      have hA : countNl
          (" \\\n  (__builtin_assume(__builtin_has_cpu_feature(_FEATURE_".data) = 1 := by
        decide
      have hB : countNl (")), \\\n".data) = 1 := by decide
      simp only [macroTemplate, countNl_append]
      rw [hA, hB, h0.2.2.2.2.1]
    have hcont : countNl contChunk = 1 := by decide
    have hclose : countNl closeChunk = 1 := by decide
    rw [List.flatten_append, List.flatten_append]
    simp only [List.flatten_cons, List.flatten_nil, List.append_nil, countNl_append]
    rw [hT, hcont, hclose, countNl_flatten_ones mids hnlm]
    omega
  · refine ⟨g1 ++ g2 ++ g3 ++ macroTemplate t ++ g4 ++ contChunk ++ mids.flatten, ?_⟩
    rw [List.flatten_append, List.flatten_append]
    simp [closeChunk]

/-- Witness for C3 at a concrete three-line macro. -/
theorem c3_witness :
    handleMacro [(("_m".data), some ("SSE2".data))] [("_m".data)]
      ("#define _m(a) x \\\n".data) ([("y \\\n".data)] ++ ("z\n".data) :: []) =
      .ok ([("#define ".data), ("_m".data), ("(a)".data), macroTemplate ("SSE2".data),
        (" x ".data), contChunk] ++ [("y \\\n".data)] ++
        [rstripL ("z\n".data), closeChunk], [], []) ∧
    countNl (([("#define ".data), ("_m".data), ("(a)".data), macroTemplate ("SSE2".data),
        (" x ".data), contChunk] ++ [("y \\\n".data)] ++
        [rstripL ("z\n".data), closeChunk] : List Line).flatten) =
      (([("y \\\n".data)] : List Line).length + 2) + 2 := by
  have h := c3_multiline_continuation [(("_m".data), some ("SSE2".data))] [("_m".data)]
    ("#define _m(a) x \\\n".data) [("y \\\n".data)] ("z\n".data) []
    ("#define ".data) ("_m".data) ("(a)".data) (" x ".data) ("SSE2".data)
    (by decide) (by decide) (by decide)
    (by intro m hm; simp at hm; subst hm; decide) (by decide)
    (by intro m hm; simp at hm; subst hm; decide) (by decide)
  exact ⟨h.1, h.2.1⟩

/-! ## Decomposition of the macro regular expression -/

theorem splitFirst_spec : ∀ (l a b : Line) (c : Char),
    splitFirst c l = some (a, b) → l = a ++ c :: b ∧ c ∉ a := by
  intro l
  induction l with
  | nil => intro a b c h; cases h
  | cons x xs ih =>
    intro a b c h
    by_cases hx : x = c
    · subst hx
      simp only [splitFirst, if_pos] at h
      obtain ⟨rfl, rfl⟩ : a = [] ∧ xs = b := by simpa using h
      simp
    · simp only [splitFirst, if_neg hx] at h
      cases hs : splitFirst c xs with
      | none => rw [hs] at h; cases h
      | some p =>
        rw [hs] at h
        obtain ⟨rfl, rfl⟩ : a = x :: p.1 ∧ b = p.2 := by
          have h' := h
          simp at h'
          exact ⟨h'.1.symm, h'.2.symm⟩
        obtain ⟨heq, hmem⟩ := ih p.1 p.2 c hs
        constructor
        · simp [heq]
        · simp [hmem, Ne.symm hx]

theorem findParen_spec : ∀ (l acc g2 g3 a : Line),
    findParen acc l = some (g2, g3, a) →
    g2 ++ g3 ++ a = acc.reverse ++ l ∧
    (∃ q, g2 = acc.reverse ++ q) ∧
    (∃ ins, g3 = '(' :: ins ++ [')'] ∧ ')' ∉ ins) := by
  intro l
  induction l with
  | nil => intro acc g2 g3 a h; cases h
  | cons c cs ih =>
    intro acc g2 g3 a h
    by_cases hc : c = '('
    · subst hc
      cases hs : splitFirst ')' cs with
      | none => simp [findParen, hs] at h
      | some p =>
        simp [findParen, hs] at h
        obtain ⟨rfl, rfl, rfl⟩ := h
        obtain ⟨heq, hmem⟩ := splitFirst_spec cs p.1 p.2 ')' hs
        refine ⟨?_, ⟨[], by simp⟩, ⟨p.1, by simp, hmem⟩⟩
        simp [heq]
    · simp only [findParen, if_neg hc] at h
      obtain ⟨heq, ⟨q, hq⟩, hins⟩ := ih (c :: acc) g2 g3 a h
      refine ⟨?_, ⟨c :: q, ?_⟩, hins⟩
      · rw [heq]; simp
      · rw [hq]; simp

theorem dropWhile_head_false : ∀ (l : Line) (p : Char → Bool) (x : Char) (xs : Line),
    l.dropWhile p = x :: xs → p x = false := by
  intro l
  induction l with
  | nil => intro p x xs h; cases h
  | cons y ys ih =>
    intro p x xs h
    by_cases hy : p y
    · rw [List.dropWhile_cons_of_pos hy] at h
      exact ih p x xs h
    · rw [List.dropWhile_cons_of_neg hy] at h
      cases h
      exact Bool.not_eq_true _ ▸ hy

theorem dropLit_spec (p l r : Line) (h : dropLit p l = some r) : l = p ++ r := by
  unfold dropLit at h
  by_cases hp : p.isPrefixOf l
  · rw [if_pos hp] at h
    obtain ⟨t, rfl⟩ := List.isPrefixOf_iff_prefix.mp hp
    cases h
    rw [List.drop_left]
  · rw [if_neg hp] at h; cases h

theorem macroTail_spec (ws r2 g1 g2 g3 g4 : Line) (flag : Bool)
    (h : macroTail ws r2 = some (g1, g2, g3, g4, flag)) :
    ∃ r5, g1 = ("#define".data) ++ ws ∧ (∃ nm, g2 = '_' :: nm) ∧
      (∃ ins, g3 = '(' :: ins ++ [')'] ∧ ')' ∉ ins) ∧
      r2 = g2 ++ g3 ++ g4 ++ r5 ∧ (∀ c ∈ g4, ¬ c = '\\') ∧
      (flag = true ↔ r5 ≠ []) ∧ (r5 ≠ [] → r5.head? = some '\\') := by
  cases r2 with
  | nil => cases h
  | cons c r3 =>
    by_cases hc : c = '_'
    · subst hc
      cases hf : findParen ['_'] r3 with
      | none => simp [macroTail, hf] at h
      | some g =>
        simp only [macroTail, hf, if_pos, Option.some.injEq, Prod.mk.injEq] at h
        obtain ⟨rfl, rfl, rfl, rfl, rfl⟩ := h
        obtain ⟨hsp, ⟨q, hq⟩, hins⟩ := findParen_spec r3 ['_'] g.1 g.2.1 g.2.2 hf
        refine ⟨g.2.2.dropWhile (fun x => ¬ x = '\\'), rfl, ⟨q, by simpa using hq⟩,
          hins, ?_, ?_, ?_, ?_⟩
        · have hTD : (g.2.2.takeWhile (fun x => ¬ x = '\\')) ++
              (g.2.2.dropWhile (fun x => ¬ x = '\\')) = g.2.2 :=
            List.takeWhile_append_dropWhile _ _
          have : g.1 ++ g.2.1 ++ g.2.2 = '_' :: r3 := by simpa using hsp
          rw [← this, ← hTD]
          simp
        · intro x hx
          have := List.mem_takeWhile_imp hx
          simpa using this
        · simp
        · intro hne
          cases hr5 : g.2.2.dropWhile (fun x => ¬ x = '\\') with
          | nil => exact absurd hr5 hne
          | cons y ys =>
            have := dropWhile_head_false g.2.2 _ y ys hr5
            simp only [List.head?_cons, Option.some.injEq]
            simpa using this
    · simp [macroTail, hc] at h

theorem macroMatch_spec (s g1 g2 g3 g4 : Line) (flag : Bool)
    (h : macroMatch s = some (g1, g2, g3, g4, flag)) :
    ∃ ws r5, g1 = ("#define".data) ++ ws ∧ ws ≠ [] ∧
      (∀ c ∈ ws, isPySpace c = true) ∧ (∃ nm, g2 = '_' :: nm) ∧
      (∃ ins, g3 = '(' :: ins ++ [')'] ∧ ')' ∉ ins) ∧
      s = g1 ++ g2 ++ g3 ++ g4 ++ r5 ∧ (∀ c ∈ g4, ¬ c = '\\') ∧
      (flag = true ↔ r5 ≠ []) ∧ (r5 ≠ [] → r5.head? = some '\\') := by
  unfold macroMatch at h
  cases hd : dropLit ("#define".data) s with
  | none => rw [hd] at h; cases h
  | some r1 =>
    rw [hd] at h
    simp only [] at h
    by_cases hws : r1.takeWhile isPySpace = []
    · rw [if_pos hws] at h; cases h
    · rw [if_neg hws] at h
      obtain ⟨r5, hg1, hg2, hg3, hr2, hg4, hflag, hhead⟩ :=
        macroTail_spec (r1.takeWhile isPySpace) (r1.dropWhile isPySpace)
          g1 g2 g3 g4 flag h
      refine ⟨r1.takeWhile isPySpace, r5, hg1, hws, ?_, hg2, hg3, ?_, hg4, hflag, hhead⟩
      · intro c hc
        exact List.mem_takeWhile_imp hc
      · have hs1 : s = ("#define".data) ++ r1 := dropLit_spec _ _ _ hd
        have hs2 : (r1.takeWhile isPySpace) ++ (r1.dropWhile isPySpace) = r1 :=
          List.takeWhile_append_dropWhile _ _
        rw [hs1, ← hs2, hr2, hg1]
        simp

/-- C5 counterexample: on the stripped MacroStart line `#define _a() b\c`
(mapped or not, the parse is the same) the regular expression sets the
continuation flag — its group 5 consumes the mid-line backslash — although
the line has no TRAILING continuation marker, refuting the claimed
equivalence between the flag and a trailing marker. -/
theorem c5_counterexample :
    macroMatch (stripL ("#define _a() b\\c\n".data)) =
      some (("#define ".data), ("_a".data), ("()".data), (" b".data), true) ∧
    endsWithChar '\\' (stripL ("#define _a() b\\c\n".data)) = false ∧
    pyGet [(("_a".data), some ("AVX".data))] ("_a".data) = some ("AVX".data) := by
  refine ⟨by decide, by decide, by decide⟩

/-- C5 (amended): the macro rewriter parses the line into the define
keyword with its whitespace, an underscore-led name, a parenthesized
parameter list, and a remainder that stops at the FIRST backslash after
the parameter list; the flag is set if and only if such a backslash is
present anywhere in that remainder (for lines whose only backslash is
trailing this coincides with the claim).  The three leading components
are emitted verbatim, followed by the grouping-plus-assumption template
and the remainder; with the flag clear the grouping construct is closed
and the macro terminated on the same logical line. -/
theorem c5_macro_parse_amended :
    (∀ (s g1 g2 g3 g4 : Line) (flag : Bool),
      macroMatch s = some (g1, g2, g3, g4, flag) →
      ∃ ws r5, g1 = ("#define".data) ++ ws ∧ ws ≠ [] ∧
        (∀ c ∈ ws, isPySpace c = true) ∧ (∃ nm, g2 = '_' :: nm) ∧
        (∃ ins, g3 = '(' :: ins ++ [')'] ∧ ')' ∉ ins) ∧
        s = g1 ++ g2 ++ g3 ++ g4 ++ r5 ∧ (∀ c ∈ g4, ¬ c = '\\') ∧
        (flag = true ↔ r5 ≠ []) ∧ (r5 ≠ [] → r5.head? = some '\\')) ∧
    (∀ (tech : FMap) (pending : List Line) (line : Line) (input : List Line)
      (g1 g2 g3 g4 t : Line),
      macroMatch (stripL line) = some (g1, g2, g3, g4, false) →
      pyGet tech g2 = some t → g2 ∈ pending →
      handleMacro tech pending line input =
        .ok ([g1, g2, g3, macroTemplate t, g4, closeChunk], input,
          pending.erase g2)) ∧
    (∀ (tech : FMap) (pending : List Line) (line : Line) (input : List Line)
      (g1 g2 g3 g4 t : Line),
      macroMatch (stripL line) = some (g1, g2, g3, g4, true) →
      pyGet tech g2 = some t → g2 ∈ pending →
      handleMacro tech pending line input =
        .ok ([g1, g2, g3, macroTemplate t, g4, contChunk] ++ (scanCont input).1 ++
          [rstripL (scanCont input).2.1, closeChunk], (scanCont input).2.2,
          pending.erase g2)) := by
  refine ⟨macroMatch_spec, ?_, ?_⟩
  · intro tech pending line input g1 g2 g3 g4 t hm hget hp
    simp [handleMacro, hm, hget, hp]
  · intro tech pending line input g1 g2 g3 g4 t hm hget hp
    simp [handleMacro, hm, hget, hp]

/-- Witness for C5 at concrete single-line and multi-line macros. -/
theorem c5_witness :
    (∃ ws r5, ("#define ".data) = ("#define".data) ++ ws ∧ ws ≠ [] ∧
      (∀ c ∈ ws, isPySpace c = true) ∧ (∃ nm, ("_b".data) = '_' :: nm) ∧
      (∃ ins, ("(y)".data) = '(' :: ins ++ [')'] ∧ ')' ∉ ins) ∧
      stripL ("#define _b(y) (y)+1\n".data) =
        ("#define ".data) ++ ("_b".data) ++ ("(y)".data) ++ (" (y)+1".data) ++ r5 ∧
      (∀ c ∈ (" (y)+1".data), ¬ c = '\\') ∧
      ((false : Bool) = true ↔ r5 ≠ []) ∧ (r5 ≠ [] → r5.head? = some '\\')) ∧
    handleMacro [(("_b".data), some ("SSE3".data))] [("_b".data)]
      ("#define _b(y) (y)+1\n".data) [] =
      .ok ([("#define ".data), ("_b".data), ("(y)".data), macroTemplate ("SSE3".data),
        (" (y)+1".data), closeChunk], [], []) := by
  constructor
  · exact c5_macro_parse_amended.1 (stripL ("#define _b(y) (y)+1\n".data))
      ("#define ".data) ("_b".data) ("(y)".data) (" (y)+1".data) false (by decide)
  · exact c5_macro_parse_amended.2.1 [(("_b".data), some ("SSE3".data))] [("_b".data)]
      ("#define _b(y) (y)+1\n".data) [] ("#define ".data) ("_b".data) ("(y)".data)
      (" (y)+1".data) ("SSE3".data) (by decide) (by decide) (by decide)

/-! ## Consumption bounds for the handlers, and fuel adequacy -/

theorem seekBrace_rest_le : ∀ (input : List Line) (stripped : Line) (o r : List Line),
    seekBrace stripped input = .ok (o, r) → r.length ≤ input.length := by
  intro input
  induction input with
  | nil =>
    intro stripped o r h
    by_cases hs : endsWithChar '\x7b' stripped = true
    · rw [seekBrace_immediate _ _ hs] at h
      obtain ⟨rfl, rfl⟩ : ([] : List Line) = o ∧ ([] : List Line) = r := by simpa using h
      exact Nat.le_refl _
    · rw [seekBrace_nil _ (by simpa using hs)] at h; cases h
  | cons l rest ih =>
    intro stripped o r h
    by_cases hs : endsWithChar '\x7b' stripped = true
    · rw [seekBrace_immediate _ _ hs] at h
      obtain ⟨rfl, rfl⟩ : ([] : List Line) = o ∧ l :: rest = r := by simpa using h
      exact Nat.le_refl _
    · rw [seekBrace_cons _ _ _ (by simpa using hs)] at h
      cases hsb : seekBrace (stripL l) rest with
      | ok p =>
        rw [hsb] at h
        obtain ⟨rfl, rfl⟩ : l :: p.1 = o ∧ p.2 = r := by
          simpa [PRes.map] using h
        exact Nat.le_succ_of_le (ih (stripL l) p.1 p.2 (by rw [hsb]))
      | keyError => rw [hsb] at h; simp [PRes.map] at h
      | typeError => rw [hsb] at h; simp [PRes.map] at h
      | hang => rw [hsb] at h; simp [PRes.map] at h

theorem scanCont_rest_le : ∀ (input : List Line),
    (scanCont input).2.2.length ≤ input.length := by
  intro input
  induction input with
  | nil => exact Nat.le_refl _
  | cons l rest ih =>
    by_cases hl : endsWithChar '\\' (stripL l) = true
    · have hred : (scanCont (l :: rest)).2.2 = (scanCont rest).2.2 := by
        simp [scanCont, hl]
      rw [hred]
      exact Nat.le_succ_of_le ih
    · have hred : scanCont (l :: rest) = ([], l, rest) := by simp [scanCont, hl]
      rw [hred]
      exact Nat.le_succ _

theorem handleFunction_rest_le (tech : FMap) (pending : List Line) (line : Line)
    (input : List Line) (r : List Line × List Line × List Line)
    (h : handleFunction tech pending line input = .ok r) :
    r.2.1.length ≤ input.length := by
  cases hm : funcMatchName (stripL (input.head?.getD [])) with
  | none =>
    simp only [handleFunction, hm] at h
    cases h
    simp [List.length_tail]
  | some name =>
    cases hg : pyGet tech name with
    | none =>
      simp only [handleFunction, hm, hg] at h
      cases h
      simp [List.length_tail]
    | some t =>
      by_cases hp : name ∈ pending
      · simp only [handleFunction, hm, hg, if_pos hp] at h
        cases hsb : seekBrace (stripL (input.head?.getD [])) input.tail with
        | ok p =>
          rw [hsb] at h
          have hle := seekBrace_rest_le input.tail _ p.1 p.2 (by rw [hsb])
          obtain rfl : ([line, input.head?.getD []] ++ p.1 ++ [assumeStmt t],
              p.2, pending.erase name) = r := by
            simpa [PRes.map] using h
          have ht : input.tail.length ≤ input.length := by
            simp [List.length_tail]
          exact Nat.le_trans hle ht
        | keyError => rw [hsb] at h; simp [PRes.map] at h
        | typeError => rw [hsb] at h; simp [PRes.map] at h
        | hang => rw [hsb] at h; simp [PRes.map] at h
      · simp only [handleFunction, hm, hg, if_neg hp] at h
        cases h

theorem handleMacro_rest_le (tech : FMap) (pending : List Line) (line : Line)
    (input : List Line) (r : List Line × List Line × List Line)
    (h : handleMacro tech pending line input = .ok r) :
    r.2.1.length ≤ input.length := by
  cases hm : macroMatch (stripL line) with
  | none =>
    cases hs : simpleMacroName (stripL line) with
    | none => simp only [handleMacro, hm, hs] at h; cases h; exact Nat.le_refl _
    | some nm => simp only [handleMacro, hm, hs] at h; cases h; exact Nat.le_refl _
  | some g =>
    cases hg : pyGet tech g.2.1 with
    | none => simp only [handleMacro, hm, hg] at h; cases h; exact Nat.le_refl _
    | some t =>
      by_cases hp : g.2.1 ∈ pending
      · by_cases hfl : g.2.2.2.2 = false
        · simp only [handleMacro, hm, hg, if_pos hp, if_pos hfl] at h
          cases h
          exact Nat.le_refl _
        · simp only [handleMacro, hm, hg, if_pos hp, if_neg hfl] at h
          cases h
          exact scanCont_rest_le input
      · simp only [handleMacro, hm, hg, if_neg hp] at h
        cases h

theorem processLinesF_fuel (tech : FMap) : ∀ (f1 : Nat) (input : List Line)
    (f2 : Nat) (pending : List Line), input.length < f1 → input.length < f2 →
    processLinesF tech f1 pending input = processLinesF tech f2 pending input := by
  intro f1
  induction f1 with
  | zero => intro input f2 pending h1 _; exact absurd h1 (Nat.not_lt_zero _)
  | succ n ih =>
    intro input f2 pending h1 h2
    cases f2 with
    | zero => exact absurd h2 (Nat.not_lt_zero _)
    | succ m =>
      cases input with
      | nil => rfl
      | cons line rest =>
        simp only [List.length_cons] at h1 h2
        by_cases he : line = []
        · simp [processLinesF, he]
        · by_cases hfm : funcMarker.isPrefixOf line = true
          · simp only [processLinesF, if_neg he, if_pos hfm]
            cases hh : handleFunction tech pending line rest with
            | ok r =>
              simp only [hh]
              have hle := handleFunction_rest_le tech pending line rest r hh
              rw [ih r.2.1 m r.2.2 (by omega) (by omega)]
            | keyError => simp only [hh]
            | typeError => simp only [hh]
            | hang => simp only [hh]
          · by_cases hdm : defineMarker.isPrefixOf line = true
            · simp only [processLinesF, if_neg he, if_neg hfm, if_pos hdm]
              cases hh : handleMacro tech pending line rest with
              | ok r =>
                simp only [hh]
                have hle := handleMacro_rest_le tech pending line rest r hh
                rw [ih r.2.1 m r.2.2 (by omega) (by omega)]
              | keyError => simp only [hh]
              | typeError => simp only [hh]
              | hang => simp only [hh]
            · simp only [processLinesF, if_neg he, if_neg hfm, if_neg hdm]
              rw [ih rest m pending (by omega) (by omega)]

/-! ## One-step unfolding of the dispatch loop at its canonical fuel -/

theorem processLines_nil (tech : FMap) (pending : List Line) :
    processLines tech pending [] = .ok ([], pending) := rfl

theorem processLines_cons_empty (tech : FMap) (pending : List Line)
    (rest : List Line) :
    processLines tech pending ([] :: rest) = .ok ([], pending) := by
  simp [processLines, processLinesF]

theorem processLines_cons_func (tech : FMap) (pending : List Line) (line : Line)
    (rest : List Line) (r : List Line × List Line × List Line)
    (he : ¬ line = []) (hfm : funcMarker.isPrefixOf line = true)
    (hh : handleFunction tech pending line rest = .ok r) :
    processLines tech pending (line :: rest) =
      (processLines tech r.2.2 r.2.1).map (fun q => (r.1 ++ q.1, q.2)) := by
  have hle := handleFunction_rest_le tech pending line rest r hh
  unfold processLines
  simp only [List.length_cons, processLinesF, if_neg he, if_pos hfm, hh]
  rw [processLinesF_fuel tech (rest.length + 1) r.2.1 (r.2.1.length + 1) r.2.2
    (by omega) (by omega)]

theorem processLines_cons_define (tech : FMap) (pending : List Line) (line : Line)
    (rest : List Line) (r : List Line × List Line × List Line)
    (he : ¬ line = []) (hfm : funcMarker.isPrefixOf line = false)
    (hdm : defineMarker.isPrefixOf line = true)
    (hh : handleMacro tech pending line rest = .ok r) :
    processLines tech pending (line :: rest) =
      (processLines tech r.2.2 r.2.1).map (fun q => (r.1 ++ q.1, q.2)) := by
  have hle := handleMacro_rest_le tech pending line rest r hh
  unfold processLines
  simp only [List.length_cons, processLinesF, if_neg he,
    if_neg (by simp [hfm] : ¬ funcMarker.isPrefixOf line = true), if_pos hdm, hh]
  rw [processLinesF_fuel tech (rest.length + 1) r.2.1 (r.2.1.length + 1) r.2.2
    (by omega) (by omega)]

theorem processLines_cons_plain (tech : FMap) (pending : List Line) (line : Line)
    (rest : List Line)
    (he : ¬ line = []) (hfm : funcMarker.isPrefixOf line = false)
    (hdm : defineMarker.isPrefixOf line = false) :
    processLines tech pending (line :: rest) =
      (processLines tech pending rest).map (fun q => (line :: q.1, q.2)) := by
  unfold processLines
  simp only [List.length_cons, processLinesF, if_neg he,
    if_neg (by simp [hfm] : ¬ funcMarker.isPrefixOf line = true),
    if_neg (by simp [hdm] : ¬ defineMarker.isPrefixOf line = true)]

theorem processFile_scan (tech : FMap) (pending : List Line) (input : List Line)
    (h : ¬ input.head?.getD [] = sentinel) :
    processFile tech pending input = (processLines tech pending input).map
      (fun q => (sentinel ++ q.1.flatten, q.2)) := by
  simp [processFile, h]

/-! ## Local fallback behaviour of the handlers -/

theorem handleFunction_nomatch (tech : FMap) (pending : List Line) (line funcDecl : Line)
    (rest : List Line) (hname : funcMatchName (stripL funcDecl) = none) :
    handleFunction tech pending line (funcDecl :: rest) =
      .ok ([line, funcDecl], rest, pending) := by
  simp [handleFunction, hname]

theorem handleFunction_unmapped (tech : FMap) (pending : List Line) (line funcDecl : Line)
    (rest : List Line) (name : Line)
    (hname : funcMatchName (stripL funcDecl) = some name)
    (hget : pyGet tech name = none) :
    handleFunction tech pending line (funcDecl :: rest) =
      .ok ([line, funcDecl], rest, pending) := by
  simp [handleFunction, hname, hget]

theorem handleMacro_unmapped (tech : FMap) (pending : List Line) (line : Line)
    (input : List Line) (g : Line × Line × Line × Line × Bool)
    (hm : macroMatch (stripL line) = some g) (hget : pyGet tech g.2.1 = none) :
    handleMacro tech pending line input = .ok ([line], input, pending) := by
  simp [handleMacro, hm, hget]

theorem handleMacro_nomatch_simple (tech : FMap) (pending : List Line) (line : Line)
    (input : List Line) (name : Line)
    (hm : macroMatch (stripL line) = none)
    (hs : simpleMacroName (stripL line) = some name) :
    handleMacro tech pending line input = .ok ([line], input, pending.erase name) := by
  simp [handleMacro, hm, hs]

theorem handleMacro_nomatch (tech : FMap) (pending : List Line) (line : Line)
    (input : List Line)
    (hm : macroMatch (stripL line) = none)
    (hs : simpleMacroName (stripL line) = none) :
    handleMacro tech pending line input = .ok ([line], input, pending) := by
  simp [handleMacro, hm, hs]

/-- C4: a declaration whose extracted name is not a FeatureMap key is
passed through byte-for-byte: the function handler emits exactly the two
consumed lines and stops, the macro handler emits exactly the MacroStart
line and consumes nothing further, no assumption statement is produced,
and at file level the only difference from the input is the single
prepended sentinel line. -/
theorem c4_unmapped_passthrough :
    (∀ (tech : FMap) (pending : List Line) (lineA funcDecl : Line)
      (rest : List Line) (name : Line),
      funcMatchName (stripL funcDecl) = some name → pyGet tech name = none →
      handleFunction tech pending lineA (funcDecl :: rest) =
        .ok ([lineA, funcDecl], rest, pending) ∧
      ([lineA, funcDecl] : List Line).flatten = lineA ++ funcDecl) ∧
    (∀ (tech : FMap) (pending : List Line) (lineM : Line) (input : List Line)
      (g : Line × Line × Line × Line × Bool),
      macroMatch (stripL lineM) = some g → pyGet tech g.2.1 = none →
      handleMacro tech pending lineM input = .ok ([lineM], input, pending)) ∧
    (∀ (tech : FMap) (pending : List Line) (lineA funcDecl : Line) (name : Line),
      funcMarker.isPrefixOf lineA = true →
      funcMatchName (stripL funcDecl) = some name → pyGet tech name = none →
      processFile tech pending [lineA, funcDecl] =
        .ok (sentinel ++ (lineA ++ funcDecl), pending)) ∧
    (∀ (tech : FMap) (pending : List Line) (lineM : Line)
      (g : Line × Line × Line × Line × Bool),
      defineMarker.isPrefixOf lineM = true →
      macroMatch (stripL lineM) = some g → pyGet tech g.2.1 = none →
      processFile tech pending [lineM] = .ok (sentinel ++ lineM, pending)) := by
  refine ⟨?_, ?_, ?_, ?_⟩
  · intro tech pending lineA funcDecl rest name hname hget
    exact ⟨handleFunction_unmapped tech pending lineA funcDecl rest name hname hget,
      by simp⟩
  · intro tech pending lineM input g hm hget
    exact handleMacro_unmapped tech pending lineM input g hm hget
  · intro tech pending lineA funcDecl name hmk hname hget
    obtain ⟨t0, rfl⟩ := List.isPrefixOf_iff_prefix.mp hmk
    have he : ¬ (funcMarker ++ t0) = [] := by simp [funcMarker]
    have hsen : ¬ ((((funcMarker ++ t0) :: [funcDecl] : List Line)).head?.getD [])
        = sentinel := by
      simp only [List.head?_cons, Option.getD_some]
      intro hq
      simp [funcMarker, sentinel] at hq
    rw [processFile_scan _ _ _ hsen]
    rw [processLines_cons_func tech pending (funcMarker ++ t0) [funcDecl]
      ([funcMarker ++ t0, funcDecl], [], pending) he hmk
      (handleFunction_unmapped tech pending (funcMarker ++ t0) funcDecl [] name
        hname hget)]
    simp [processLines_nil, PRes.map]
  · intro tech pending lineM g hmk hm hget
    obtain ⟨t0, rfl⟩ := List.isPrefixOf_iff_prefix.mp hmk
    have he : ¬ (defineMarker ++ t0) = [] := by simp [defineMarker]
    have hfm : funcMarker.isPrefixOf (defineMarker ++ t0) = false := by
      cases hx : funcMarker.isPrefixOf (defineMarker ++ t0) with
      | false => rfl
      | true =>
        obtain ⟨u, hu⟩ := List.isPrefixOf_iff_prefix.mp hx
        exfalso
        simp [funcMarker, defineMarker] at hu
    have hsen : ¬ ((((defineMarker ++ t0) :: [] : List Line)).head?.getD [])
        = sentinel := by
      simp only [List.head?_cons, Option.getD_some]
      intro hq
      simp [defineMarker, sentinel] at hq
    rw [processFile_scan _ _ _ hsen]
    rw [processLines_cons_define tech pending (defineMarker ++ t0) []
      ([defineMarker ++ t0], [], pending) he hfm hmk
      (handleMacro_unmapped tech pending (defineMarker ++ t0) [] g hm hget)]
    simp [processLines_nil, PRes.map]

/-- Witness for C4 at concrete unmapped declarations. -/
theorem c4_witness :
    handleFunction [] [] ("static __inline int\n".data) [("_foo(void)\n".data)] =
      .ok ([("static __inline int\n".data), ("_foo(void)\n".data)], [], []) ∧
    handleMacro [] [] ("#define _bar(x) 1\n".data) [] =
      .ok ([("#define _bar(x) 1\n".data)], [], []) ∧
    processFile [] [] [("static __inline int\n".data), ("_foo(void)\n".data)] =
      .ok (sentinel ++ (("static __inline int\n".data) ++ ("_foo(void)\n".data)), []) ∧
    processFile [] [] [("#define _bar(x) 1\n".data)] =
      .ok (sentinel ++ ("#define _bar(x) 1\n".data), []) := by
  refine ⟨?_, ?_, ?_, ?_⟩
  · exact (c4_unmapped_passthrough.1 [] [] ("static __inline int\n".data)
      ("_foo(void)\n".data) [] ("_foo".data) (by decide) (by decide)).1
  · exact c4_unmapped_passthrough.2.1 [] [] ("#define _bar(x) 1\n".data) []
      (("#define ".data), ("_bar".data), ("(x)".data), (" 1".data), false)
      (by decide) (by decide)
  · exact c4_unmapped_passthrough.2.2.1 [] [] ("static __inline int\n".data)
      ("_foo(void)\n".data) ("_foo".data) (by decide) (by decide) (by decide)
  · exact c4_unmapped_passthrough.2.2.2 [] [] ("#define _bar(x) 1\n".data)
      (("#define ".data), ("_bar".data), ("(x)".data), (" 1".data), false)
      (by decide) (by decide) (by decide)

/-- C6 counterexample: a well-formed XML description (one intrinsic,
`_a` with tech `AVX` and CPUID text `AVX`) and a header declaring the
mapped macro `_a` twice.  The loader succeeds, but the run aborts with an
uncaught `KeyError` from `allIntrinsics.remove` on the second match —
a condition that is neither an I/O nor an XML-parse failure, refuting the
claim that all other conditions are resolved locally. -/
theorem c6_counterexample :
    parseElems [] [] [⟨("_a".data), some ("AVX".data), [some ("AVX".data)]⟩] =
      .ok ([(("_a".data), some ("AVX".data))], [("_a".data)]) ∧
    runFiles [(("_a".data), some ("AVX".data))] [("_a".data)]
      [[("#define _a() x\n".data), ("#define _a() x\n".data)]] = .keyError := by
  exact ⟨by decide, by decide⟩

/-- C6 (amended): unrecognized names and malformed macro lines are
resolved locally by pass-through and never abort — the function handler
on a prototype that does not match or whose name is unmapped, and the
macro handler on a non-matching or unmapped line, all return normally,
with the simple-macro fallback doing its PendingNameSet bookkeeping via
`discard` — EXCEPT that matching a mapped name whose PendingNameSet entry
was already removed (a repeated match of the same name) raises an
uncaught KeyError that terminates the run. -/
theorem c6_local_fallback_amended :
    (∀ (tech : FMap) (pending : List Line) (line funcDecl : Line) (rest : List Line),
      funcMatchName (stripL funcDecl) = none →
      handleFunction tech pending line (funcDecl :: rest) =
        .ok ([line, funcDecl], rest, pending)) ∧
    (∀ (tech : FMap) (pending : List Line) (line funcDecl : Line) (rest : List Line)
      (name : Line),
      funcMatchName (stripL funcDecl) = some name → pyGet tech name = none →
      handleFunction tech pending line (funcDecl :: rest) =
        .ok ([line, funcDecl], rest, pending)) ∧
    (∀ (tech : FMap) (pending : List Line) (line : Line) (input : List Line),
      macroMatch (stripL line) = none → simpleMacroName (stripL line) = none →
      handleMacro tech pending line input = .ok ([line], input, pending)) ∧
    (∀ (tech : FMap) (pending : List Line) (line : Line) (input : List Line)
      (name : Line),
      macroMatch (stripL line) = none → simpleMacroName (stripL line) = some name →
      handleMacro tech pending line input = .ok ([line], input, pending.erase name)) ∧
    (∀ (tech : FMap) (pending : List Line) (line : Line) (input : List Line)
      (g : Line × Line × Line × Line × Bool),
      macroMatch (stripL line) = some g → pyGet tech g.2.1 = none →
      handleMacro tech pending line input = .ok ([line], input, pending)) ∧
    (∀ (tech : FMap) (pending : List Line) (line : Line) (input : List Line)
      (name t : Line),
      funcMatchName (stripL (input.head?.getD [])) = some name →
      pyGet tech name = some t → name ∉ pending →
      handleFunction tech pending line input = .keyError) ∧
    (∀ (tech : FMap) (pending : List Line) (line : Line) (input : List Line)
      (g : Line × Line × Line × Line × Bool) (t : Line),
      macroMatch (stripL line) = some g → pyGet tech g.2.1 = some t →
      g.2.1 ∉ pending →
      handleMacro tech pending line input = .keyError) := by
  refine ⟨?_, ?_, ?_, ?_, ?_, ?_, ?_⟩
  · intro tech pending line funcDecl rest hname
    exact handleFunction_nomatch tech pending line funcDecl rest hname
  · intro tech pending line funcDecl rest name hname hget
    exact handleFunction_unmapped tech pending line funcDecl rest name hname hget
  · intro tech pending line input hm hs
    exact handleMacro_nomatch tech pending line input hm hs
  · intro tech pending line input name hm hs
    exact handleMacro_nomatch_simple tech pending line input name hm hs
  · intro tech pending line input g hm hget
    exact handleMacro_unmapped tech pending line input g hm hget
  · intro tech pending line input name t hname hget hp
    simp [handleFunction, hname, hget, hp]
  · intro tech pending line input g t hm hget hp
    simp [handleMacro, hm, hget, hp]

/-- Witness for the amended C6 at concrete inputs. -/
theorem c6_witness :
    handleFunction [] [] ("static __inline int\n".data) [("int x;\n".data)] =
      .ok ([("static __inline int\n".data), ("int x;\n".data)], [], []) ∧
    handleMacro [(("_a".data), some ("AVX".data))] []
      ("#define _a() x\n".data) [] = .keyError := by
  constructor
  · exact c6_local_fallback_amended.1 [] [] ("static __inline int\n".data)
      ("int x;\n".data) [] (by decide)
  · exact c6_local_fallback_amended.2.2.2.2.2.2 [(("_a".data), some ("AVX".data))]
      [] ("#define _a() x\n".data) []
      (("#define ".data), ("_a".data), ("()".data), (" x".data), false)
      ("AVX".data) (by decide) (by decide) (by decide)

/-! ## Output independence from the pending set -/

theorem handleFunction_indep (tech : FMap) (p1 p2 : List Line) (line : Line)
    (input : List Line) (r1 r2 : List Line × List Line × List Line)
    (h1 : handleFunction tech p1 line input = .ok r1)
    (h2 : handleFunction tech p2 line input = .ok r2) :
    r1.1 = r2.1 ∧ r1.2.1 = r2.2.1 := by
  cases hm : funcMatchName (stripL (input.head?.getD [])) with
  | none =>
    simp only [handleFunction, hm] at h1 h2
    cases h1; cases h2; exact ⟨rfl, rfl⟩
  | some name =>
    cases hg : pyGet tech name with
    | none =>
      simp only [handleFunction, hm, hg] at h1 h2
      cases h1; cases h2; exact ⟨rfl, rfl⟩
    | some t =>
      by_cases hp1 : name ∈ p1
      · by_cases hp2 : name ∈ p2
        · simp only [handleFunction, hm, hg, if_pos hp1] at h1
          simp only [handleFunction, hm, hg, if_pos hp2] at h2
          cases hsb : seekBrace (stripL (input.head?.getD [])) input.tail with
          | ok p =>
            rw [hsb] at h1 h2
            simp only [PRes.map] at h1 h2
            cases h1; cases h2; exact ⟨rfl, rfl⟩
          | keyError => rw [hsb] at h1; simp [PRes.map] at h1
          | typeError => rw [hsb] at h1; simp [PRes.map] at h1
          | hang => rw [hsb] at h1; simp [PRes.map] at h1
        · simp only [handleFunction, hm, hg, if_neg hp2] at h2; cases h2
      · simp only [handleFunction, hm, hg, if_neg hp1] at h1; cases h1

theorem handleMacro_indep (tech : FMap) (p1 p2 : List Line) (line : Line)
    (input : List Line) (r1 r2 : List Line × List Line × List Line)
    (h1 : handleMacro tech p1 line input = .ok r1)
    (h2 : handleMacro tech p2 line input = .ok r2) :
    r1.1 = r2.1 ∧ r1.2.1 = r2.2.1 := by
  cases hm : macroMatch (stripL line) with
  | none =>
    cases hs : simpleMacroName (stripL line) with
    | none =>
      simp only [handleMacro, hm, hs] at h1 h2
      cases h1; cases h2; exact ⟨rfl, rfl⟩
    | some nm =>
      simp only [handleMacro, hm, hs] at h1 h2
      cases h1; cases h2; exact ⟨rfl, rfl⟩
  | some g =>
    cases hg : pyGet tech g.2.1 with
    | none =>
      simp only [handleMacro, hm, hg] at h1 h2
      cases h1; cases h2; exact ⟨rfl, rfl⟩
    | some t =>
      by_cases hp1 : g.2.1 ∈ p1
      · by_cases hp2 : g.2.1 ∈ p2
        · by_cases hfl : g.2.2.2.2 = false
          · simp only [handleMacro, hm, hg, if_pos hp1, if_pos hfl] at h1
            simp only [handleMacro, hm, hg, if_pos hp2, if_pos hfl] at h2
            cases h1; cases h2; exact ⟨rfl, rfl⟩
          · simp only [handleMacro, hm, hg, if_pos hp1, if_neg hfl] at h1
            simp only [handleMacro, hm, hg, if_pos hp2, if_neg hfl] at h2
            cases h1; cases h2; exact ⟨rfl, rfl⟩
        · simp only [handleMacro, hm, hg, if_neg hp2] at h2; cases h2
      · simp only [handleMacro, hm, hg, if_neg hp1] at h1; cases h1

theorem processLinesF_out_indep (tech : FMap) : ∀ (fuel : Nat) (input : List Line)
    (p1 p2 : List Line) (r1 r2 : List Line × List Line),
    processLinesF tech fuel p1 input = .ok r1 →
    processLinesF tech fuel p2 input = .ok r2 → r1.1 = r2.1 := by
  intro fuel
  induction fuel with
  | zero => intro input p1 p2 r1 r2 h1 _; simp [processLinesF] at h1
  | succ n ih =>
    intro input p1 p2 r1 r2 h1 h2
    cases input with
    | nil =>
      simp only [processLinesF] at h1 h2
      cases h1; cases h2; rfl
    | cons line rest =>
      by_cases he : line = []
      · simp only [processLinesF, if_pos he] at h1 h2
        cases h1; cases h2; rfl
      · by_cases hfm : funcMarker.isPrefixOf line = true
        · simp only [processLinesF, if_neg he, if_pos hfm] at h1 h2
          cases hh1 : handleFunction tech p1 line rest with
          | ok a1 =>
            cases hh2 : handleFunction tech p2 line rest with
            | ok a2 =>
              simp only [hh1] at h1
              simp only [hh2] at h2
              obtain ⟨ho, hr⟩ := handleFunction_indep tech p1 p2 line rest a1 a2 hh1 hh2
              cases hq1 : processLinesF tech n a1.2.2 a1.2.1 with
              | ok q1 =>
                cases hq2 : processLinesF tech n a2.2.2 a2.2.1 with
                | ok q2 =>
                  rw [hq1] at h1; rw [hq2] at h2
                  simp only [PRes.map] at h1 h2
                  cases h1; cases h2
                  rw [← hr] at hq2
                  have hq := ih a1.2.1 a1.2.2 a2.2.2 q1 q2 hq1 hq2
                  simp [ho, hq]
                | keyError => rw [hq2] at h2; simp [PRes.map] at h2
                | typeError => rw [hq2] at h2; simp [PRes.map] at h2
                | hang => rw [hq2] at h2; simp [PRes.map] at h2
              | keyError => rw [hq1] at h1; simp [PRes.map] at h1
              | typeError => rw [hq1] at h1; simp [PRes.map] at h1
              | hang => rw [hq1] at h1; simp [PRes.map] at h1
            | keyError => simp only [hh2] at h2; exact PRes.noConfusion h2
            | typeError => simp only [hh2] at h2; exact PRes.noConfusion h2
            | hang => simp only [hh2] at h2; exact PRes.noConfusion h2
          | keyError => simp only [hh1] at h1; exact PRes.noConfusion h1
          | typeError => simp only [hh1] at h1; exact PRes.noConfusion h1
          | hang => simp only [hh1] at h1; exact PRes.noConfusion h1
        · by_cases hdm : defineMarker.isPrefixOf line = true
          · simp only [processLinesF, if_neg he, if_neg hfm, if_pos hdm] at h1 h2
            cases hh1 : handleMacro tech p1 line rest with
            | ok a1 =>
              cases hh2 : handleMacro tech p2 line rest with
              | ok a2 =>
                simp only [hh1] at h1
                simp only [hh2] at h2
                obtain ⟨ho, hr⟩ := handleMacro_indep tech p1 p2 line rest a1 a2 hh1 hh2
                cases hq1 : processLinesF tech n a1.2.2 a1.2.1 with
                | ok q1 =>
                  cases hq2 : processLinesF tech n a2.2.2 a2.2.1 with
                  | ok q2 =>
                    rw [hq1] at h1; rw [hq2] at h2
                    simp only [PRes.map] at h1 h2
                    cases h1; cases h2
                    rw [← hr] at hq2
                    have hq := ih a1.2.1 a1.2.2 a2.2.2 q1 q2 hq1 hq2
                    simp [ho, hq]
                  | keyError => rw [hq2] at h2; simp [PRes.map] at h2
                  | typeError => rw [hq2] at h2; simp [PRes.map] at h2
                  | hang => rw [hq2] at h2; simp [PRes.map] at h2
                | keyError => rw [hq1] at h1; simp [PRes.map] at h1
                | typeError => rw [hq1] at h1; simp [PRes.map] at h1
                | hang => rw [hq1] at h1; simp [PRes.map] at h1
              | keyError => simp only [hh2] at h2; exact PRes.noConfusion h2
              | typeError => simp only [hh2] at h2; exact PRes.noConfusion h2
              | hang => simp only [hh2] at h2; exact PRes.noConfusion h2
            | keyError => simp only [hh1] at h1; exact PRes.noConfusion h1
            | typeError => simp only [hh1] at h1; exact PRes.noConfusion h1
            | hang => simp only [hh1] at h1; exact PRes.noConfusion h1
          · simp only [processLinesF, if_neg he, if_neg hfm, if_neg hdm] at h1 h2
            cases hq1 : processLinesF tech n p1 rest with
            | ok q1 =>
              cases hq2 : processLinesF tech n p2 rest with
              | ok q2 =>
                rw [hq1] at h1; rw [hq2] at h2
                simp only [PRes.map] at h1 h2
                cases h1; cases h2
                have hq := ih rest p1 p2 q1 q2 hq1 hq2
                simp [hq]
              | keyError => rw [hq2] at h2; simp [PRes.map] at h2
              | typeError => rw [hq2] at h2; simp [PRes.map] at h2
              | hang => rw [hq2] at h2; simp [PRes.map] at h2
            | keyError => rw [hq1] at h1; simp [PRes.map] at h1
            | typeError => rw [hq1] at h1; simp [PRes.map] at h1
            | hang => rw [hq1] at h1; simp [PRes.map] at h1

theorem processFile_out_indep (tech : FMap) (p1 p2 : List Line) (input : List Line)
    (o1 o2 : List Char) (q1 q2 : List Line)
    (h1 : processFile tech p1 input = .ok (o1, q1))
    (h2 : processFile tech p2 input = .ok (o2, q2)) : o1 = o2 := by
  by_cases hs : input.head?.getD [] = sentinel
  · rw [processFile_sentinel tech p1 input hs] at h1
    rw [processFile_sentinel tech p2 input hs] at h2
    cases h1; cases h2; rfl
  · rw [processFile_scan tech p1 input hs] at h1
    rw [processFile_scan tech p2 input hs] at h2
    cases hp1 : processLines tech p1 input with
    | ok a1 =>
      cases hp2 : processLines tech p2 input with
      | ok a2 =>
        rw [hp1] at h1; rw [hp2] at h2
        simp only [PRes.map] at h1 h2
        cases h1; cases h2
        have := processLinesF_out_indep tech (input.length + 1) input p1 p2 a1 a2 hp1 hp2
        simp [this]
      | keyError => rw [hp2] at h2; simp [PRes.map] at h2
      | typeError => rw [hp2] at h2; simp [PRes.map] at h2
      | hang => rw [hp2] at h2; simp [PRes.map] at h2
    | keyError => rw [hp1] at h1; simp [PRes.map] at h1
    | typeError => rw [hp1] at h1; simp [PRes.map] at h1
    | hang => rw [hp1] at h1; simp [PRes.map] at h1

/-- C8 counterexample: with the mapped macro `_a`, processing the same
file succeeds when it is the first file of the run but aborts with
KeyError when an identical file precedes it — whether processing a file
succeeds depends on the PendingNameSet state left by earlier files, so
per-file processing is not independent as claimed. -/
theorem c8_counterexample :
    runFiles [(("_a".data), some ("AVX".data))] [("_a".data)]
      [[("#define _a() x\n".data)]] =
      .ok ([sentinel ++ ("#define ".data) ++ ("_a".data) ++ ("()".data) ++
        macroTemplate ("AVX".data) ++ (" x".data) ++ closeChunk], []) ∧
    runFiles [(("_a".data), some ("AVX".data))] [("_a".data)]
      [[("#define _a() x\n".data)], [("#define _a() x\n".data)]] = .keyError := by
  exact ⟨by decide, by decide⟩

/-- C8 (amended): for a fixed FeatureMap, the BYTES produced for a file
do not depend on the PendingNameSet state left by earlier files — any two
successful runs of the same file contents under different pending sets
emit identical output — but whether processing succeeds does depend on
that shared set (a name already matched in an earlier file aborts the
run when matched again). -/
theorem c8_independence_amended :
    ∀ (tech : FMap) (p1 p2 : List Line) (input : List Line)
      (o1 o2 : List Char) (q1 q2 : List Line),
      processFile tech p1 input = .ok (o1, q1) →
      processFile tech p2 input = .ok (o2, q2) → o1 = o2 :=
  processFile_out_indep

/-- Witness for the amended C8: the same file processed under two
different pending sets yields the same bytes. -/
theorem c8_witness :
    processFile [(("_a".data), some ("AVX".data))] [("_a".data)]
      [("#define _a() x\n".data)] =
      .ok (sentinel ++ ("#define ".data) ++ ("_a".data) ++ ("()".data) ++
        macroTemplate ("AVX".data) ++ (" x".data) ++ closeChunk, []) ∧
    processFile [(("_a".data), some ("AVX".data))] [("_a".data), ("_z".data)]
      [("#define _a() x\n".data)] =
      .ok (sentinel ++ ("#define ".data) ++ ("_a".data) ++ ("()".data) ++
        macroTemplate ("AVX".data) ++ (" x".data) ++ closeChunk, [("_z".data)]) ∧
    (sentinel ++ ("#define ".data) ++ ("_a".data) ++ ("()".data) ++
        macroTemplate ("AVX".data) ++ (" x".data) ++ closeChunk : List Char) =
      sentinel ++ ("#define ".data) ++ ("_a".data) ++ ("()".data) ++
        macroTemplate ("AVX".data) ++ (" x".data) ++ closeChunk := by
  refine ⟨by decide, by decide, ?_⟩
  exact c8_independence_amended [(("_a".data), some ("AVX".data))]
    [("_a".data)] [("_a".data), ("_z".data)] [("#define _a() x\n".data)]
    _ _ [] [("_z".data)] (by decide) (by decide)

/-! ## Lemmas about the Python dictionary/set operations of the loader -/

theorem lookup_map_set : ∀ (m : FMap) (k : Line) (v : Option Line),
    (List.lookup k m).isSome = true →
    List.lookup k (m.map (fun kv => if kv.1 = k then (k, v) else kv)) = some v := by
  intro m k v
  induction m with
  | nil => intro h; simp [List.lookup] at h
  | cons a m' ih =>
    intro h
    obtain ⟨a1, b1⟩ := a
    by_cases ha : a1 = k
    · subst ha
      have hhead : (if ((a1, b1) : Line × Option Line).1 = a1 then (a1, v)
          else (a1, b1)) = (a1, v) := by simp
      rw [List.map_cons, hhead]
      simp [List.lookup]
    · have hne : (k == a1) = false := by simp [Ne.symm ha]
      have hhead : (if ((a1, b1) : Line × Option Line).1 = k then (k, v)
          else (a1, b1)) = (a1, b1) := by simp [ha]
      rw [List.map_cons, hhead]
      simp only [List.lookup, hne] at h ⊢
      exact ih h

theorem lookup_append_self : ∀ (m : FMap) (k : Line) (v : Option Line),
    List.lookup k m = none →
    List.lookup k (m ++ [(k, v)]) = some v := by
  intro m k v
  induction m with
  | nil => intro _; simp [List.lookup]
  | cons a m' ih =>
    intro h
    by_cases ha : (k == a.1) = true
    · simp [List.lookup, ha] at h
    · have hne : (k == a.1) = false := by simpa using ha
      simp only [List.lookup, hne, List.cons_append] at h ⊢
      exact ih h

theorem pyDictSet_lookup (m : FMap) (k : Line) (v : Option Line) :
    List.lookup k (pyDictSet m k v) = some v := by
  unfold pyDictSet
  by_cases hm : (List.lookup k m).isSome = true
  · rw [if_pos hm]
    exact lookup_map_set m k v hm
  · rw [if_neg hm]
    exact lookup_append_self m k v (Option.not_isSome_iff_eq_none.mp (by simpa using hm))

theorem pySetAdd_mem (p : List Line) (n : Line) : n ∈ pySetAdd p n := by
  unfold pySetAdd
  by_cases h : n ∈ p
  · rw [if_pos h]; exact h
  · rw [if_neg h]; simp

/-- C7 counterexample: an intrinsic element with a CPUID child but no
`tech` attribute.  Instead of being recorded or skipped without error,
the loader aborts with an uncaught TypeError (`"512" in None`), refuting
the claim that every element failing a condition is skipped without
error. -/
theorem c7_counterexample :
    parseStep [] [] ⟨("_a".data), none, [some ("AVX".data)]⟩ = .typeError ∧
    parseElems [] [] [⟨("_a".data), none, [some ("AVX".data)]⟩] = .typeError := by
  exact ⟨by decide, by decide⟩

/-- C7 (amended): for intrinsic elements whose `tech` attribute is
present whenever a CPUID child exists, the loader records name to
alias-mapped feature exactly when the element has a CPUID child, the
tech mentions none of the excluded substrings, and the CPUID text is not
excluded; the recorded value is the alias-mapped CPUID text, the name is
added to PendingNameSet, and failing elements are skipped without error.
An element with a CPUID child but NO tech attribute instead aborts the
run with a TypeError. -/
theorem c7_loader_amended :
    (∀ (pending : List Line) (fm : FMap) (nm : Line) (tc : Option Line),
      parseStep pending fm ⟨nm, tc, []⟩ = .ok (fm, pending)) ∧
    (∀ (pending : List Line) (fm : FMap) (nm : Line) (idt : Option Line)
      (rest : List (Option Line)),
      parseStep pending fm ⟨nm, none, idt :: rest⟩ = .typeError) ∧
    (∀ (pending : List Line) (fm : FMap) (nm tech : Line) (idt : Option Line)
      (rest : List (Option Line)),
      badTechs.any (fun b => containsSub b tech) = true →
      parseStep pending fm ⟨nm, some tech, idt :: rest⟩ = .ok (fm, pending)) ∧
    (∀ (pending : List Line) (fm : FMap) (nm tech : Line) (idt : Option Line)
      (rest : List (Option Line)),
      badTechs.any (fun b => containsSub b tech) = false →
      badIds.any (fun b => some b = idt) = true →
      parseStep pending fm ⟨nm, some tech, idt :: rest⟩ = .ok (fm, pending)) ∧
    (∀ (pending : List Line) (fm : FMap) (nm tech : Line) (idt : Option Line)
      (rest : List (Option Line)),
      badTechs.any (fun b => containsSub b tech) = false →
      badIds.any (fun b => some b = idt) = false →
      parseStep pending fm ⟨nm, some tech, idt :: rest⟩ =
        .ok (pyDictSet fm nm (aliasGet idt), pySetAdd pending nm) ∧
      List.lookup nm (pyDictSet fm nm (aliasGet idt)) = some (aliasGet idt) ∧
      nm ∈ pySetAdd pending nm) ∧
    (List.lookup ("BMI1".data) XMLToFeature = some ("BMI".data) ∧
      List.lookup ("SSE4.1".data) XMLToFeature = some ("SSE4_1".data) ∧
      ∀ s : Line, aliasGet (some s) = some ((List.lookup s XMLToFeature).getD s)) := by
  refine ⟨?_, ?_, ?_, ?_, ?_, by decide, by decide, fun s => rfl⟩
  · intro pending fm nm tc
    simp [parseStep]
  · intro pending fm nm idt rest
    simp [parseStep]
  · intro pending fm nm tech idt rest ht
    simp [parseStep, ht]
  · intro pending fm nm tech idt rest ht hi
    simp [parseStep, ht, hi]
  · intro pending fm nm tech idt rest ht hi
    exact ⟨by simp [parseStep, ht, hi], pyDictSet_lookup fm nm (aliasGet idt),
      pySetAdd_mem pending nm⟩

/-- Witness for the amended C7: a recorded element with the `BMI1`
alias, and a skipped AVX-512 element. -/
theorem c7_witness :
    parseStep [] [] ⟨("_b".data), some ("BMI".data), [some ("BMI1".data)]⟩ =
      .ok (pyDictSet [] ("_b".data) (aliasGet (some ("BMI1".data))),
        pySetAdd [] ("_b".data)) ∧
    parseStep [] [] ⟨("_v".data), some ("AVX-512".data), [some ("AVX512F".data)]⟩ =
      .ok ([], []) := by
  constructor
  · exact (c7_loader_amended.2.2.2.2.1 [] [] ("_b".data) ("BMI".data)
      (some ("BMI1".data)) [] (by decide) (by decide)).1
  · exact c7_loader_amended.2.2.1 [] [] ("_v".data) ("AVX-512".data)
      (some ("AVX512F".data)) [] (by decide)
